import Mathlib

/-!
Verification of the minigrep line-search engine (`src/lib.rs`).

The Rust source is shallowly embedded: strings are `List Char`, fallible
operations return `Except String`, and the subset of the `regex` crate
exercised by the program (literal characters, escapes, `.`, alternation,
grouping including non-capturing groups, the repetition operators, and the
word-boundary assertion `\b`) is modelled by a fuel-based parser and matcher.
Filesystem probes are modelled by explicit per-file probe results.
-/

namespace Minigrep

instance {ε α : Type} [DecidableEq ε] [DecidableEq α] : DecidableEq (Except ε α) := fun x y =>
  match x, y with
  | Except.ok a, Except.ok b =>
    if h : a = b then Decidable.isTrue (by rw [h])
    else Decidable.isFalse (by intro he; injection he; contradiction)
  | Except.error e, Except.error e' =>
    if h : e = e' then Decidable.isTrue (by rw [h])
    else Decidable.isFalse (by intro he; injection he; contradiction)
  | Except.ok _, Except.error _ => Decidable.isFalse (by intro he; injection he)
  | Except.error _, Except.ok _ => Decidable.isFalse (by intro he; injection he)

/-! ### Characters and lines -/

/-- ASCII model of Rust `str::to_lowercase` on a single character. -/
def toLowerChar (c : Char) : Char :=
  if 'A' ≤ c ∧ c ≤ 'Z' then Char.ofNat (c.toNat + 32) else c

/-- ASCII model of Rust `str::to_lowercase`. -/
def toLowerStr (s : List Char) : List Char := s.map toLowerChar

/-- Split a character list at every newline, keeping empty pieces. -/
def splitNl : List Char → List (List Char)
  | [] => [[]]
  | c :: rest =>
    if c = '\n' then [] :: splitNl rest
    else
      match splitNl rest with
      | [] => [[c]]
      | l :: ls => (c :: l) :: ls

/-- Drop one trailing carriage return, as Rust `str::lines` does per line. -/
def stripCr (l : List Char) : List Char :=
  if l.getLast? = some '\r' then l.dropLast else l

/-- Model of Rust `str::lines`: split on newline, drop the final empty
piece produced by a trailing newline (so the empty string has no lines). -/
def lines (s : List Char) : List (List Char) :=
  let ps := splitNl s
  (if ps.getLast? = some [] then ps.dropLast else ps).map stripCr

/-! ### Regex model (subset of the `regex` crate used by the program) -/

inductive Regex : Type where
  | eps : Regex
  | lit : Char → Regex
  | anyChar : Regex
  | wordB : Regex
  | cat : Regex → Regex → Regex
  | alt : Regex → Regex → Regex
  | star : Regex → Regex
  | plus : Regex → Regex
  | opt : Regex → Regex
  | group : Regex → Regex
deriving DecidableEq

def Regex.size : Regex → Nat
  | .eps => 1
  | .lit _ => 1
  | .anyChar => 1
  | .wordB => 1
  | .cat a b => a.size + b.size + 1
  | .alt a b => a.size + b.size + 1
  | .star r => r.size + 1
  | .plus r => r.size + 1
  | .opt r => r.size + 1
  | .group r => r.size + 1

/-- The characters escaped by `regex::escape` (`regex-syntax` meta characters). -/
def isMeta (c : Char) : Bool :=
  c = '\\' || c = '.' || c = '+' || c = '*' || c = '?' || c = '(' || c = ')' ||
  c = '|' || c = '[' || c = ']' || c = '{' || c = '}' || c = '^' || c = '$' ||
  c = '#' || c = '&' || c = '-' || c = '~'

/-- Model of `regex::escape`: prefix every meta character with a backslash. -/
def escape (q : List Char) : List Char :=
  q.flatMap (fun c => if isMeta c then ['\\', c] else [c])

/-- Parser mode: alternation level, sequence level, or single atom. -/
inductive PMode : Type where
  | alt : PMode
  | seq : PMode
  | atom : PMode

/-- Attach at most one repetition operator to a parsed atom. -/
def repeatOp (r : Regex) (s : List Char) : Regex × List Char :=
  match s with
  | [] => (r, [])
  | c :: rest =>
    if c = '*' then (Regex.star r, rest)
    else if c = '+' then (Regex.plus r, rest)
    else if c = '?' then (Regex.opt r, rest)
    else (r, s)

/-- Fuel-based recursive-descent parser for the regex subset the program
uses.  `parseR f .alt s` parses an alternation, `.seq` a concatenation
(stopping at `)`, `|` or the end), `.atom` one atom (escape, group
— capturing or `(?:` non-capturing —, `.`, or a literal character). -/
def parseR : Nat → PMode → List Char → Option (Regex × List Char)
  | 0, _, _ => none
  | f + 1, PMode.alt, s =>
    match parseR f PMode.seq s with
    | none => none
    | some (r, rest) =>
      match rest with
      | '|' :: rest2 =>
        (match parseR f PMode.alt rest2 with
         | none => none
         | some (r2, rest3) => some (Regex.alt r r2, rest3))
      | _ => some (r, rest)
  | f + 1, PMode.seq, s =>
    match s with
    | [] => some (Regex.eps, [])
    | c :: _ =>
      if c = ')' ∨ c = '|' then some (Regex.eps, s)
      else
        match parseR f PMode.atom s with
        | none => none
        | some (r, rest2) =>
          match repeatOp r rest2 with
          | (r2, rest3) =>
            match parseR f PMode.seq rest3 with
            | none => none
            | some (r3, rest4) => some (Regex.cat r2 r3, rest4)
  | f + 1, PMode.atom, s =>
    match s with
    | [] => none
    | c :: rest =>
      if c = '\\' then
        match rest with
        | [] => none
        | d :: rest2 => if d = 'b' then some (Regex.wordB, rest2) else some (Regex.lit d, rest2)
      else if c = '(' then
        match rest with
        | '?' :: ':' :: rest2 =>
          (match parseR f PMode.alt rest2 with
           | some (r, ')' :: rest3) => some (Regex.group r, rest3)
           | _ => none)
        | '?' :: _ => none
        | _ =>
          (match parseR f PMode.alt rest with
           | some (r, ')' :: rest3) => some (Regex.group r, rest3)
           | _ => none)
      else if c = '.' then some (Regex.anyChar, rest)
      else if c = '*' ∨ c = '+' ∨ c = '?' ∨ c = ')' ∨ c = '|' ∨ c = '[' ∨ c = ']' ∨
              c = '{' ∨ c = '}' ∨ c = '^' ∨ c = '$' then none
      else some (Regex.lit c, rest)

/-- Model of `regex::Regex::new`: parse the whole pattern or fail. -/
def compile (pat : List Char) : Option Regex :=
  match parseR (3 * pat.length + 8) PMode.alt pat with
  | some (r, []) => some r
  | _ => none

/-- ASCII word character, as in the `\b` assertion. -/
def isWordChar (c : Char) : Bool :=
  decide (('a' ≤ c ∧ c ≤ 'z') ∨ ('A' ≤ c ∧ c ≤ 'Z') ∨ ('0' ≤ c ∧ c ≤ '9') ∨ c = '_')

def isWordAt (s : List Char) (i : Nat) : Bool :=
  match s.get? i with
  | some c => isWordChar c
  | none => false

/-- Word boundary at position `i` of `s`. -/
def isBoundary (s : List Char) (i : Nat) : Bool :=
  Bool.xor (if i = 0 then false else isWordAt s (i - 1)) (isWordAt s i)

/-- Fuel-based matcher: the list of end positions of matches of `re`
starting at position `i` of `s`. -/
def runRe : Nat → Regex → List Char → Nat → List Nat
  | 0, _, _, _ => []
  | f + 1, re, s, i =>
    match re with
    | .eps => [i]
    | .lit c =>
      (match s.get? i with
       | some d => if d = c then [i + 1] else []
       | none => [])
    | .anyChar =>
      (match s.get? i with
       | some _ => [i + 1]
       | none => [])
    | .wordB => if isBoundary s i then [i] else []
    | .cat a b => (runRe f a s i).flatMap (fun j => runRe f b s j)
    | .alt a b => runRe f a s i ++ runRe f b s i
    | .group r => runRe f r s i
    | .opt r => i :: runRe f r s i
    | .star r =>
      i :: ((runRe f r s i).filter (fun j => i < j)).flatMap (fun j => runRe f (Regex.star r) s j)
    | .plus r => (runRe f r s i).flatMap (fun j => runRe f (Regex.star r) s j)

def fuelFor (re : Regex) (s : List Char) : Nat :=
  2 * (s.length + 1) * (re.size + 1) + 2

/-- Model of `Regex::is_match`: a match may start at any position. -/
def isMatch (re : Regex) (s : List Char) : Bool :=
  (List.range (s.length + 1)).any (fun i => !(runRe (fuelFor re s) re s i).isEmpty)

/-- Model of Rust `str::contains` with a string needle. -/
def containsSub (s sub : List Char) : Bool :=
  (List.range (s.length + 1)).any (fun i => sub.isPrefixOf (s.drop i))

/-! ### Configuration and the line matcher (`SearchConfig`, `match_line`) -/

structure SearchConfig : Type where
  ignore_case : Bool
  line_number : Bool
  invert_match : Bool
  whole_word : Bool
  regex : Bool
deriving DecidableEq

/-- The error produced when a pattern fails to compile. -/
def regexErr : String := "regex parse error"

/-- `format!(r"\b(?:{})\b", query)` from the regex whole-word branch. -/
def wholeWordPattern (q : List Char) : List Char :=
  '\\' :: 'b' :: '(' :: '?' :: ':' :: (q ++ (')' :: '\\' :: 'b' :: []))

/-- The pattern compiled in the `config.regex` branch of `match_line`. -/
def regexModePattern (q : List Char) (cfg : SearchConfig) : List Char :=
  if cfg.whole_word then wholeWordPattern q else q

/-- `format!(r"\b{}\b", regex::escape(query))` from the literal whole-word branch. -/
def literalWordPattern (q : List Char) : List Char :=
  '\\' :: 'b' :: (escape q ++ ('\\' :: 'b' :: []))

/-- The mode dispatch of `match_line`, applied to the already case-processed
line.  Mirrors the `if config.regex / else if config.whole_word / else`
chain of `src/lib.rs`. -/
def matchCore (lineToCheck query : List Char) (cfg : SearchConfig) : Except String Bool :=
  if cfg.regex then
    match compile (regexModePattern query cfg) with
    | none => Except.error regexErr
    | some re => Except.ok (isMatch re lineToCheck)
  else if cfg.whole_word then
    match compile (literalWordPattern query) with
    | none => Except.error regexErr
    | some re => Except.ok (isMatch re lineToCheck)
  else Except.ok (containsSub lineToCheck query)

/-- `match_line` from `src/lib.rs`: lower-case the line when `ignore_case`
is set, then dispatch on the configured mode. -/
def match_line (line query : List Char) (cfg : SearchConfig) : Except String Bool :=
  matchCore (if cfg.ignore_case then toLowerStr line else line) query cfg

/-! ### The search engine (`search`, `format_output`) -/

/-- The `processed_query` computed at the top of `search`. -/
def processedQuery (q : List Char) (cfg : SearchConfig) : List Char :=
  if cfg.ignore_case then toLowerStr q else q

/-- Rust `Iterator::enumerate`, starting from `n`. -/
def enumF {α : Type} : Nat → List α → List (Nat × α)
  | _, [] => []
  | n, a :: as => (n, a) :: enumF (n + 1) as

/-- The `filter_map` + `collect::<Result<Vec<_>, _>>` pipeline of `search`:
keep the pairs whose match decision XOR `invert_match` is true, failing on
the first line-matcher error. -/
def collectSelected (query : List Char) (cfg : SearchConfig) :
    List (Nat × List Char) → Except String (List (Nat × List Char))
  | [] => Except.ok []
  | p :: rest =>
    match match_line p.2 query cfg with
    | Except.error e => Except.error e
    | Except.ok m =>
      if Bool.xor m cfg.invert_match then
        match collectSelected query cfg rest with
        | Except.error e => Except.error e
        | Except.ok ps => Except.ok (p :: ps)
      else collectSelected query cfg rest

/-- `format_output` from `src/lib.rs`: `"{line_num+1}:{line}"` when
`line_number` is set, else the bare line. -/
def format_output (line_num : Nat) (line : List Char) (cfg : SearchConfig) : List Char :=
  if cfg.line_number then (Nat.repr (line_num + 1)).data ++ (':' :: line) else line

/-- `search` from `src/lib.rs`. -/
def search (query contents : List Char) (cfg : SearchConfig) :
    Except String (List (List Char)) :=
  match collectSelected (processedQuery query cfg) cfg (enumF 0 (lines contents)) with
  | Except.error e => Except.error e
  | Except.ok pairs => Except.ok (pairs.map (fun p => format_output p.1 p.2 cfg))

/-- The per-pair selection predicate realized by `collectSelected` when no
matcher error occurs. -/
def selPred (query : List Char) (cfg : SearchConfig) (p : Nat × List Char) : Bool :=
  match match_line p.2 query cfg with
  | Except.ok m => Bool.xor m cfg.invert_match
  | Except.error _ => false

/-- The (index, line) pairs `search` selects. -/
def selectedPairs (query contents : List Char) (cfg : SearchConfig) :
    List (Nat × List Char) :=
  (enumF 0 (lines contents)).filter (fun p => selPred (processedQuery query cfg) cfg p)

/-! ### Filesystem model (`is_binary_file`, `should_search_file`) -/

/-- One candidate file, with the outcomes of its two independent probes:
`metaRes` is `fs::metadata(path).map(|m| m.len())`, `contentRes` is
`File::open(path)` followed by reading (the bytes of the file, of which
the sniffer inspects the first 1024). -/
structure FsFile : Type where
  metaRes : Except Unit Nat
  contentRes : Except Unit (List Nat)

/-- `is_binary_file` from `src/lib.rs`: a file is binary when its first
1024 bytes contain a NUL byte; open/read errors propagate. -/
def is_binary_file (f : FsFile) : Except Unit Bool :=
  match f.contentRes with
  | Except.error e => Except.error e
  | Except.ok bytes => Except.ok ((bytes.take 1024).contains 0)

/-- The size test of `should_search_file`: `if let Ok(metadata) = ... { if len > 10MiB }`.
A metadata error makes the test false (the size check is skipped). -/
def sizeTooLarge (f : FsFile) : Bool :=
  match f.metaRes with
  | Except.ok n => decide (n > 10 * 1024 * 1024)
  | Except.error _ => false

/-- The binary-sniff part of `should_search_file`. -/
def contentEligible (f : FsFile) : Bool :=
  match is_binary_file f with
  | Except.ok b => !b
  | Except.error _ => false

/-- `should_search_file` from `src/lib.rs`. -/
def should_search_file (f : FsFile) : Bool :=
  if sizeTooLarge f then false else contentEligible f

/-- The eligibility filtering applied by `search_recursive` to the walked
file list (the file-type and hidden-directory filters have already run). -/
def eligibleFiles (files : List FsFile) : List FsFile :=
  files.filter should_search_file

/-! ### Structural lemmas about the search pipeline -/

theorem match_line_invert (l q : List Char) (cfg : SearchConfig) (b : Bool) :
    match_line l q { cfg with invert_match := b } = match_line l q cfg := by
  simp [match_line, matchCore, regexModePattern]

theorem processedQuery_invert (q : List Char) (cfg : SearchConfig) (b : Bool) :
    processedQuery q { cfg with invert_match := b } = processedQuery q cfg := by
  simp [processedQuery]

theorem mem_enumF {α : Type} :
    ∀ (xs : List α) (n : Nat) (p : Nat × α), p ∈ enumF n xs →
      n ≤ p.1 ∧ xs.get? (p.1 - n) = some p.2 := by
  intro xs
  induction xs with
  | nil => intro n p h; simp [enumF] at h
  | cons a as ih =>
    intro n p h
    rw [enumF, List.mem_cons] at h
    rcases h with h1 | h2
    · subst h1
      exact ⟨Nat.le_refl n, by simp⟩
    · obtain ⟨hle, hget⟩ := ih (n + 1) p h2
      refine ⟨by omega, ?_⟩
      have hs : p.1 - n = (p.1 - (n + 1)) + 1 := by omega
      rw [hs, List.get?_cons_succ]
      exact hget

theorem snd_mem_enumF {α : Type} (xs : List α) (n : Nat) (p : Nat × α)
    (h : p ∈ enumF n xs) : p.2 ∈ xs :=
  List.get?_mem (mem_enumF xs n p h).2

theorem pairwise_enumF {α : Type} :
    ∀ (xs : List α) (n : Nat),
      List.Pairwise (fun p q : Nat × α => p.1 < q.1) (enumF n xs) := by
  intro xs
  induction xs with
  | nil => intro n; simp [enumF]
  | cons a as ih =>
    intro n
    rw [enumF]
    refine List.Pairwise.cons ?_ (ih (n + 1))
    intro p hp
    have := (mem_enumF as (n + 1) p hp).1
    omega

theorem collectSelected_ok_of (q : List Char) (cfg : SearchConfig) :
    ∀ es : List (Nat × List Char),
      (∀ p ∈ es, (match_line p.2 q cfg).isOk = true) →
      collectSelected q cfg es = Except.ok (es.filter (fun p => selPred q cfg p)) := by
  intro es
  induction es with
  | nil => intro _; rfl
  | cons p rest ih =>
    intro h
    have hp := h p (List.mem_cons_self p rest)
    cases hml : match_line p.2 q cfg with
    | error e => rw [hml] at hp; simp [Except.isOk, Except.toBool] at hp
    | ok m =>
      have hrest := ih (fun p' hp' => h p' (List.mem_cons_of_mem _ hp'))
      have hsel : selPred q cfg p = Bool.xor m cfg.invert_match := by
        simp [selPred, hml]
      simp only [collectSelected, hml, List.filter_cons, hsel]
      cases hxor : Bool.xor m cfg.invert_match with
      | true => simp [hrest]
      | false => simp [hrest]

theorem collectSelected_ok_elim (q : List Char) (cfg : SearchConfig) :
    ∀ (es : List (Nat × List Char)) (ps : List (Nat × List Char)),
      collectSelected q cfg es = Except.ok ps →
      ps = es.filter (fun p => selPred q cfg p) := by
  intro es
  induction es with
  | nil =>
    intro ps h
    simp only [collectSelected] at h
    injection h with h
    simp [h.symm]
  | cons p rest ih =>
    intro ps h
    cases hml : match_line p.2 q cfg with
    | error e =>
      simp only [collectSelected, hml] at h
      exact absurd h (by simp)
    | ok m =>
      simp only [collectSelected, hml] at h
      have hsel : selPred q cfg p = Bool.xor m cfg.invert_match := by
        simp [selPred, hml]
      rw [List.filter_cons, hsel]
      cases hxor : Bool.xor m cfg.invert_match with
      | true =>
        simp only [hxor, if_true] at h ⊢
        cases hcs : collectSelected q cfg rest with
        | error e =>
          simp only [hcs] at h
          exact absurd h (by simp)
        | ok ps' =>
          simp only [hcs] at h
          injection h with h
          rw [← h, ih ps' hcs]
      | false =>
        simp only [hxor, Bool.false_eq_true, if_false] at h ⊢
        exact ih ps h

theorem search_ok_of (q c : List Char) (cfg : SearchConfig)
    (h : ∀ l ∈ lines c, (match_line l (processedQuery q cfg) cfg).isOk = true) :
    search q c cfg =
      Except.ok ((selectedPairs q c cfg).map (fun p => format_output p.1 p.2 cfg)) := by
  have hall : ∀ p ∈ enumF 0 (lines c),
      (match_line p.2 (processedQuery q cfg) cfg).isOk = true :=
    fun p hp => h p.2 (snd_mem_enumF _ 0 p hp)
  unfold search
  rw [collectSelected_ok_of _ _ _ hall]
  rfl

theorem search_ok_elim (q c : List Char) (cfg : SearchConfig) (r : List (List Char))
    (h : search q c cfg = Except.ok r) :
    r = (selectedPairs q c cfg).map (fun p => format_output p.1 p.2 cfg) := by
  unfold search at h
  cases hcs : collectSelected (processedQuery q cfg) cfg (enumF 0 (lines c)) with
  | error e => rw [hcs] at h; exact absurd h (by simp)
  | ok ps =>
    rw [hcs] at h
    injection h with h
    rw [← h, collectSelected_ok_elim _ _ _ _ hcs]
    rfl

theorem containsSub_nil (s : List Char) : containsSub s [] = true := by
  unfold containsSub
  rw [List.any_eq_true]
  exact ⟨0, by simp, by simp [List.isPrefixOf]⟩

theorem isMatch_eps (s : List Char) : isMatch Regex.eps s = true := by
  unfold isMatch
  rw [List.any_eq_true]
  refine ⟨0, by simp, ?_⟩
  obtain ⟨k, hk⟩ : ∃ k, fuelFor Regex.eps s = k + 1 :=
    ⟨fuelFor Regex.eps s - 1, by unfold fuelFor; omega⟩
  rw [hk]
  simp [runRe]

theorem compile_nil : compile [] = some Regex.eps := by decide

theorem match_line_nil_query (l : List Char) (cfg : SearchConfig)
    (hww : cfg.whole_word = false) :
    match_line l [] cfg = Except.ok true := by
  unfold match_line matchCore
  cases hr : cfg.regex with
  | false => simp [hr, hww, containsSub_nil]
  | true => simp [hr, regexModePattern, hww, compile_nil, isMatch_eps]

theorem collectSelected_all (q : List Char) (cfg : SearchConfig)
    (hinv : cfg.invert_match = false) :
    ∀ es : List (Nat × List Char),
      (∀ p ∈ es, match_line p.2 q cfg = Except.ok true) →
      collectSelected q cfg es = Except.ok es := by
  intro es
  induction es with
  | nil => intro _; rfl
  | cons p rest ih =>
    intro h
    have hp := h p (List.mem_cons_self p rest)
    have hrest := ih (fun p' hp' => h p' (List.mem_cons_of_mem _ hp'))
    simp [collectSelected, hp, hinv, hrest]

/-! ### Parser lemmas: escaped literal patterns always compile -/

theorem ne_of_not_meta (c d : Char) (h : isMeta c = false) (hd : isMeta d = true) :
    ¬c = d := fun hcd => by rw [hcd, hd] at h; exact Bool.noConfusion h

theorem parseR_atom_wordB (f : Nat) (rest : List Char) :
    parseR (f + 1) PMode.atom ('\\' :: 'b' :: rest) = some (Regex.wordB, rest) := by
  simp [parseR]

theorem parseR_atom_esc (f : Nat) (d : Char) (rest : List Char) (hd : ¬d = 'b') :
    parseR (f + 1) PMode.atom ('\\' :: d :: rest) = some (Regex.lit d, rest) := by
  simp [parseR, hd]

theorem parseR_atom_lit (f : Nat) (c : Char) (rest : List Char) (h : isMeta c = false) :
    parseR (f + 1) PMode.atom (c :: rest) = some (Regex.lit c, rest) := by
  have h1 := ne_of_not_meta c '\\' h (by decide)
  have h2 := ne_of_not_meta c '(' h (by decide)
  have h3 := ne_of_not_meta c '.' h (by decide)
  have h4 := ne_of_not_meta c '*' h (by decide)
  have h5 := ne_of_not_meta c '+' h (by decide)
  have h6 := ne_of_not_meta c '?' h (by decide)
  have h7 := ne_of_not_meta c ')' h (by decide)
  have h8 := ne_of_not_meta c '|' h (by decide)
  have h9 := ne_of_not_meta c '[' h (by decide)
  have h10 := ne_of_not_meta c ']' h (by decide)
  have h11 := ne_of_not_meta c '{' h (by decide)
  have h12 := ne_of_not_meta c '}' h (by decide)
  have h13 := ne_of_not_meta c '^' h (by decide)
  have h14 := ne_of_not_meta c '$' h (by decide)
  simp [parseR, h1, h2, h3, h4, h5, h6, h7, h8, h9, h10, h11, h12, h13, h14]

theorem parseR_seq_nil (f : Nat) : parseR (f + 1) PMode.seq [] = some (Regex.eps, []) := by
  simp [parseR]

theorem parseR_seq_cons (f : Nat) (c : Char) (s : List Char) (h1 : ¬c = ')') (h2 : ¬c = '|')
    (r : Regex) (rest2 : List Char) (hatom : parseR f PMode.atom (c :: s) = some (r, rest2))
    (r2 : Regex) (rest3 : List Char) (hrep : repeatOp r rest2 = (r2, rest3))
    (r3 : Regex) (rest4 : List Char) (hseq : parseR f PMode.seq rest3 = some (r3, rest4)) :
    parseR (f + 1) PMode.seq (c :: s) = some (Regex.cat r2 r3, rest4) := by
  simp [parseR, h1, h2, hatom, hrep, hseq]

theorem repeatOp_nil (r : Regex) : repeatOp r [] = (r, []) := rfl

theorem repeatOp_noop (r : Regex) (c : Char) (rest : List Char)
    (h1 : ¬c = '*') (h2 : ¬c = '+') (h3 : ¬c = '?') :
    repeatOp r (c :: rest) = (r, c :: rest) := by
  simp [repeatOp, h1, h2, h3]

theorem escape_nil : escape [] = [] := rfl

theorem escape_cons (c : Char) (q : List Char) :
    escape (c :: q) = (if isMeta c then ['\\', c] else [c]) ++ escape q := by
  simp [escape]

theorem repeatOp_escape_bb (r : Regex) (q : List Char) :
    repeatOp r (escape q ++ ('\\' :: 'b' :: [])) = (r, escape q ++ ('\\' :: 'b' :: [])) := by
  cases q with
  | nil =>
    rw [escape_nil, List.nil_append]
    exact repeatOp_noop r '\\' _ (by decide) (by decide) (by decide)
  | cons c q' =>
    cases hM : isMeta c with
    | true =>
      have hL : escape (c :: q') ++ ('\\' :: 'b' :: []) =
          '\\' :: (c :: (escape q' ++ ('\\' :: 'b' :: []))) := by
        rw [escape_cons, hM]
        simp
      rw [hL]
      exact repeatOp_noop r '\\' _ (by decide) (by decide) (by decide)
    | false =>
      have hL : escape (c :: q') ++ ('\\' :: 'b' :: []) =
          c :: (escape q' ++ ('\\' :: 'b' :: [])) := by
        rw [escape_cons, hM]
        simp
      rw [hL]
      exact repeatOp_noop r c _
        (ne_of_not_meta c '*' hM (by decide))
        (ne_of_not_meta c '+' hM (by decide))
        (ne_of_not_meta c '?' hM (by decide))

theorem parseR_seq_escape (q : List Char) :
    ∀ f, 2 * q.length + 2 ≤ f →
      ∃ r, parseR f PMode.seq (escape q ++ ('\\' :: 'b' :: [])) = some (r, []) := by
  induction q with
  | nil =>
    intro f hf
    obtain ⟨f1, rfl⟩ : ∃ f1, f = f1 + 1 := ⟨f - 1, by omega⟩
    obtain ⟨f2, rfl⟩ : ∃ f2, f1 = f2 + 1 := ⟨f1 - 1, by omega⟩
    rw [escape_nil, List.nil_append]
    exact ⟨Regex.cat Regex.wordB Regex.eps,
      parseR_seq_cons (f2 + 1) '\\' ['b'] (by decide) (by decide)
        Regex.wordB [] (parseR_atom_wordB f2 [])
        Regex.wordB [] (repeatOp_nil _)
        Regex.eps [] (parseR_seq_nil f2)⟩
  | cons c q' ih =>
    intro f hf
    rw [List.length_cons] at hf
    obtain ⟨f1, rfl⟩ : ∃ f1, f = f1 + 1 := ⟨f - 1, by omega⟩
    obtain ⟨f2, rfl⟩ : ∃ f2, f1 = f2 + 1 := ⟨f1 - 1, by omega⟩
    obtain ⟨r', hr'⟩ := ih (f2 + 1) (by omega)
    cases hM : isMeta c with
    | true =>
      have hL : escape (c :: q') ++ ('\\' :: 'b' :: []) =
          '\\' :: (c :: (escape q' ++ ('\\' :: 'b' :: []))) := by
        rw [escape_cons, hM]
        simp
      rw [hL]
      have hcb : ¬c = 'b' := fun hcb => by
        rw [hcb] at hM
        exact absurd hM (by decide)
      exact ⟨Regex.cat (Regex.lit c) r',
        parseR_seq_cons (f2 + 1) '\\' (c :: (escape q' ++ ('\\' :: 'b' :: [])))
          (by decide) (by decide)
          (Regex.lit c) (escape q' ++ ('\\' :: 'b' :: [])) (parseR_atom_esc f2 c _ hcb)
          (Regex.lit c) (escape q' ++ ('\\' :: 'b' :: [])) (repeatOp_escape_bb _ q')
          r' [] hr'⟩
    | false =>
      have hL : escape (c :: q') ++ ('\\' :: 'b' :: []) =
          c :: (escape q' ++ ('\\' :: 'b' :: [])) := by
        rw [escape_cons, hM]
        simp
      rw [hL]
      exact ⟨Regex.cat (Regex.lit c) r',
        parseR_seq_cons (f2 + 1) c (escape q' ++ ('\\' :: 'b' :: []))
          (ne_of_not_meta c ')' hM (by decide)) (ne_of_not_meta c '|' hM (by decide))
          (Regex.lit c) (escape q' ++ ('\\' :: 'b' :: [])) (parseR_atom_lit f2 c _ hM)
          (Regex.lit c) (escape q' ++ ('\\' :: 'b' :: [])) (repeatOp_escape_bb _ q')
          r' [] hr'⟩

theorem escape_length_ge (q : List Char) : q.length ≤ (escape q).length := by
  induction q with
  | nil => simp [escape]
  | cons c q' ih =>
    rw [escape_cons]
    cases isMeta c <;> simp [List.length_append] <;> omega

theorem compile_literalWordPattern (q : List Char) :
    ∃ r, compile (literalWordPattern q) = some r := by
  have hlen : (literalWordPattern q).length = (escape q).length + 4 := by
    simp [literalWordPattern]
  have hq := escape_length_ge q
  obtain ⟨f2, hf2⟩ : ∃ f2, 3 * (literalWordPattern q).length + 8 = f2 + 1 :=
    ⟨3 * (literalWordPattern q).length + 7, by omega⟩
  obtain ⟨f3, hf3⟩ : ∃ f3, f2 = f3 + 1 := ⟨f2 - 1, by omega⟩
  obtain ⟨r', hr'⟩ := parseR_seq_escape q f3 (by omega)
  have hcons : parseR f2 PMode.seq (literalWordPattern q) =
      some (Regex.cat Regex.wordB r', []) := by
    obtain ⟨f4, hf4⟩ : ∃ f4, f3 = f4 + 1 := ⟨f3 - 1, by omega⟩
    rw [hf3]
    show parseR (f3 + 1) PMode.seq ('\\' :: 'b' :: (escape q ++ ('\\' :: 'b' :: []))) = _
    refine parseR_seq_cons f3 '\\' ('b' :: (escape q ++ ('\\' :: 'b' :: [])))
      (by decide) (by decide)
      Regex.wordB (escape q ++ ('\\' :: 'b' :: [])) ?_
      Regex.wordB (escape q ++ ('\\' :: 'b' :: [])) (repeatOp_escape_bb _ q)
      r' [] hr'
    rw [hf4]
    exact parseR_atom_wordB f4 _
  refine ⟨Regex.cat Regex.wordB r', ?_⟩
  unfold compile
  rw [hf2]
  simp [parseR, hcons]

/-! ### Concrete inputs used by the witnesses -/

def cfgLit : SearchConfig := ⟨false, false, false, false, false⟩

def cfgRegex : SearchConfig := ⟨false, false, false, false, true⟩

def cfgWW : SearchConfig := ⟨false, false, false, true, true⟩

def cfgLN : SearchConfig := ⟨false, true, false, false, false⟩

def cfgIC : SearchConfig := ⟨true, false, false, false, false⟩

def cfgLW : SearchConfig := ⟨false, false, false, true, false⟩

def exC1query : List Char := ("a").data

def exC1contents : List Char := ("ab\nxy").data

def exStar : List Char := ("*").data

def exC2contents : List Char := ("some text\nto search through").data

def exC2l1 : List Char := ("some text").data

def exC2l2 : List Char := ("to search through").data

def exC3query : List Char := ("test").data

def exC3l1 : List Char := ("This is a test.").data

def exC3l2 : List Char := ("testing123").data

def exC3l3 : List Char := ("(test)").data

def exC3l4 : List Char := ("test,case").data

def exC3contents : List Char := ("This is a test.\ntesting123\n(test)\ntest,case").data

def exC4query : List Char := ("rUsT").data

def exC4contents : List Char := ("Trust me.").data

def exC5query : List Char := ("fast").data

def exC5contents : List Char := ("Rust:\nsafe, fast, productive.\nPick three.").data

def exC5out : List Char := ("2:safe, fast, productive.").data

def exC9contents : List Char := ("abc\ndef").data

def exC10query : List Char := ("a+b(").data

def exC10line : List Char := ("xx").data

/-- A file whose metadata probe fails but whose content probe succeeds
with non-binary content. -/
def probeErrFile : FsFile := ⟨Except.error (), Except.ok [104, 105]⟩

/-- A regular file whose reported size exceeds the 10 MiB ceiling. -/
def bigFile : FsFile := ⟨Except.ok 10485761, Except.ok []⟩

/-- A file whose content-read probe fails. -/
def readErrFile : FsFile := ⟨Except.ok 5, Except.error ()⟩

/-! ### Claims -/

/-- C1: Inversion law.  When every per-line match decision succeeds, the
pairs selected by `search` with `invert_match = false` and with
`invert_match = true` (all other fields equal) partition the lines of the
contents: every line is selected under exactly one of the two settings,
`search` succeeds under both, and a line is selected exactly when the
line-matcher result XOR `invert_match` is true. -/
theorem C1_inversion_partition (q c : List Char) (cfg : SearchConfig)
    (hok : ∀ l ∈ lines c, (match_line l (processedQuery q cfg) cfg).isOk = true) :
    (∃ r1, search q c { cfg with invert_match := false } = Except.ok r1) ∧
    (∃ r2, search q c { cfg with invert_match := true } = Except.ok r2) ∧
    ∀ p ∈ enumF 0 (lines c),
      ((p ∈ selectedPairs q c { cfg with invert_match := false } ∨
        p ∈ selectedPairs q c { cfg with invert_match := true }) ∧
       ¬(p ∈ selectedPairs q c { cfg with invert_match := false } ∧
         p ∈ selectedPairs q c { cfg with invert_match := true })) ∧
      ∃ m, match_line p.2 (processedQuery q cfg) cfg = Except.ok m ∧
        ∀ b : Bool, (p ∈ selectedPairs q c { cfg with invert_match := b } ↔
          Bool.xor m b = true) := by
  have hokb : ∀ b : Bool, ∀ l ∈ lines c,
      (match_line l (processedQuery q { cfg with invert_match := b })
        { cfg with invert_match := b }).isOk = true := by
    intro b l hl
    rw [processedQuery_invert, match_line_invert]
    exact hok l hl
  have hmemiff : ∀ (b : Bool) (p : Nat × List Char), p ∈ enumF 0 (lines c) →
      ∀ m, match_line p.2 (processedQuery q cfg) cfg = Except.ok m →
      (p ∈ selectedPairs q c { cfg with invert_match := b } ↔ Bool.xor m b = true) := by
    intro b p hp m hm
    have hsel : selPred (processedQuery q { cfg with invert_match := b })
        { cfg with invert_match := b } p = Bool.xor m b := by
      rw [processedQuery_invert]
      simp [selPred, match_line_invert, hm]
    unfold selectedPairs
    simp only [List.mem_filter, hp, true_and]
    rw [hsel]
  refine ⟨⟨_, search_ok_of _ _ _ (hokb false)⟩, ⟨_, search_ok_of _ _ _ (hokb true)⟩, ?_⟩
  intro p hp
  have hl2 : p.2 ∈ lines c := snd_mem_enumF _ 0 p hp
  have hOk := hok p.2 hl2
  cases hm : match_line p.2 (processedQuery q cfg) cfg with
  | error e => rw [hm] at hOk; simp [Except.isOk, Except.toBool] at hOk
  | ok m =>
    refine ⟨⟨?_, ?_⟩, m, rfl, fun b => hmemiff b p hp m hm⟩
    · cases hmm : m with
      | true => exact Or.inl ((hmemiff false p hp m hm).mpr (by rw [hmm]; rfl))
      | false => exact Or.inr ((hmemiff true p hp m hm).mpr (by rw [hmm]; rfl))
    · rintro ⟨hF, hT⟩
      have h1 := (hmemiff false p hp m hm).mp hF
      have h2 := (hmemiff true p hp m hm).mp hT
      cases m <;> simp_all

/-- Witness for C1: the hypothesis and conclusion hold at a concrete input
(query `a`, contents `ab\nxy`, literal configuration). -/
theorem C1_inversion_partition_witness :
    (∀ l ∈ lines exC1contents,
      (match_line l (processedQuery exC1query cfgLit) cfgLit).isOk = true) ∧
    ((∃ r1, search exC1query exC1contents { cfgLit with invert_match := false } = Except.ok r1) ∧
     (∃ r2, search exC1query exC1contents { cfgLit with invert_match := true } = Except.ok r2) ∧
     ∀ p ∈ enumF 0 (lines exC1contents),
       ((p ∈ selectedPairs exC1query exC1contents { cfgLit with invert_match := false } ∨
         p ∈ selectedPairs exC1query exC1contents { cfgLit with invert_match := true }) ∧
        ¬(p ∈ selectedPairs exC1query exC1contents { cfgLit with invert_match := false } ∧
          p ∈ selectedPairs exC1query exC1contents { cfgLit with invert_match := true })) ∧
       ∃ m, match_line p.2 (processedQuery exC1query cfgLit) cfgLit = Except.ok m ∧
         ∀ b : Bool,
           (p ∈ selectedPairs exC1query exC1contents { cfgLit with invert_match := b } ↔
             Bool.xor m b = true)) :=
  ⟨fun _ _ => rfl,
   C1_inversion_partition exC1query exC1contents cfgLit (fun _ _ => rfl)⟩

/-- C2: if the (processed) query cannot be compiled under regex mode, then
for every contents with at least one line, `search` returns an error (the
first line-matcher error, i.e. the regex-compilation error) and no result
vector. -/
theorem C2_invalid_regex_error (q c : List Char) (cfg : SearchConfig)
    (hr : cfg.regex = true)
    (hcomp : compile (regexModePattern (processedQuery q cfg) cfg) = none)
    (l : List Char) (rest : List (List Char)) (hl : lines c = l :: rest) :
    search q c cfg = Except.error regexErr ∧
    match_line l (processedQuery q cfg) cfg = Except.error regexErr := by
  have hml : ∀ l' : List Char,
      match_line l' (processedQuery q cfg) cfg = Except.error regexErr := by
    intro l'
    unfold match_line matchCore
    simp [hr, hcomp]
  refine ⟨?_, hml l⟩
  unfold search
  rw [hl]
  simp [enumF, collectSelected, hml]

/-- Witness for C2 at the repository's own test input: query `*`,
contents `some text\nto search through`, regex mode. -/
theorem C2_invalid_regex_error_witness :
    (cfgRegex.regex = true) ∧
    (compile (regexModePattern (processedQuery exStar cfgRegex) cfgRegex) = none) ∧
    (lines exC2contents = exC2l1 :: [exC2l2]) ∧
    (search exStar exC2contents cfgRegex = Except.error regexErr ∧
     match_line exC2l1 (processedQuery exStar cfgRegex) cfgRegex = Except.error regexErr) :=
  ⟨rfl, by decide, by decide,
   C2_invalid_regex_error exStar exC2contents cfgRegex rfl (by decide) exC2l1 [exC2l2] (by decide)⟩

/-- C3: whole-word matching under whole-word+regex mode is boundary-aware,
not whitespace-splitting: with query `test`, the lines `This is a test.`,
`(test)` and `test,case` match while `testing123` does not, and `search`
on the four-line contents returns exactly the three matching lines. -/
theorem C3_whole_word_punctuation :
    match_line exC3l1 exC3query cfgWW = Except.ok true ∧
    match_line exC3l3 exC3query cfgWW = Except.ok true ∧
    match_line exC3l4 exC3query cfgWW = Except.ok true ∧
    match_line exC3l2 exC3query cfgWW = Except.ok false ∧
    search exC3query exC3contents cfgWW = Except.ok [exC3l1, exC3l3, exC3l4] := by
  decide

/-- C4: with `ignore_case` set, the match decision compares a lower-cased
copy of the line with a lower-cased copy of the query (so it is insensitive
to the casing of both sides), while every string in an `Except.ok` result of
`search` is the formatting of an original (case-preserved) line of the
contents. -/
theorem C4_case_insensitive (q c : List Char) (cfg : SearchConfig)
    (hic : cfg.ignore_case = true) :
    (∀ line : List Char, match_line line (processedQuery q cfg) cfg =
        matchCore (toLowerStr line) (toLowerStr q) cfg) ∧
    (∀ l1 l2 q1 q2 : List Char, toLowerStr l1 = toLowerStr l2 →
        toLowerStr q1 = toLowerStr q2 →
        match_line l1 (processedQuery q1 cfg) cfg =
          match_line l2 (processedQuery q2 cfg) cfg) ∧
    (∀ r, search q c cfg = Except.ok r → ∀ s ∈ r,
        ∃ i lo, (lines c).get? i = some lo ∧ s = format_output i lo cfg) := by
  have key : ∀ line qq : List Char, match_line line (processedQuery qq cfg) cfg =
      matchCore (toLowerStr line) (toLowerStr qq) cfg := by
    intro line qq
    unfold match_line processedQuery
    rw [hic]
    simp
  refine ⟨fun line => key line q, ?_, ?_⟩
  · intro l1 l2 q1 q2 hl hq
    rw [key l1 q1, key l2 q2, hl, hq]
  · intro r hr s hs
    have hre := search_ok_elim q c cfg r hr
    rw [hre] at hs
    obtain ⟨p, hp, hfmt⟩ := List.mem_map.mp hs
    have hpe : p ∈ enumF 0 (lines c) := (List.mem_filter.mp hp).1
    have hget := (mem_enumF _ 0 p hpe).2
    exact ⟨p.1, p.2, by simpa using hget, hfmt.symm⟩

/-- Witness for C4 at the repository's test input: query `rUsT`, contents
`Trust me.`, case-insensitive configuration. -/
theorem C4_case_insensitive_witness :
    (cfgIC.ignore_case = true) ∧
    ((∀ line : List Char, match_line line (processedQuery exC4query cfgIC) cfgIC =
        matchCore (toLowerStr line) (toLowerStr exC4query) cfgIC) ∧
     (∀ l1 l2 q1 q2 : List Char, toLowerStr l1 = toLowerStr l2 →
        toLowerStr q1 = toLowerStr q2 →
        match_line l1 (processedQuery q1 cfgIC) cfgIC =
          match_line l2 (processedQuery q2 cfgIC) cfgIC) ∧
     (∀ r, search exC4query exC4contents cfgIC = Except.ok r → ∀ s ∈ r,
        ∃ i lo, (lines exC4contents).get? i = some lo ∧ s = format_output i lo cfgIC)) :=
  ⟨rfl, C4_case_insensitive exC4query exC4contents cfgIC rfl⟩

/-- C5: with `line_number` enabled, every successful `search` result renders
each selected line as the decimal of its 1-based original position, a colon,
and the line text; the selected positions are the line's position in the
original contents, and the result is strictly ascending in them. -/
theorem C5_line_numbers (q c : List Char) (cfg : SearchConfig) (r : List (List Char))
    (hln : cfg.line_number = true)
    (hok : search q c cfg = Except.ok r) :
    r = (selectedPairs q c cfg).map
        (fun p => (Nat.repr (p.1 + 1)).data ++ (':' :: p.2)) ∧
    List.Pairwise (fun a b : Nat => a < b) ((selectedPairs q c cfg).map Prod.fst) ∧
    ∀ p ∈ selectedPairs q c cfg, (lines c).get? p.1 = some p.2 := by
  have hre := search_ok_elim q c cfg r hok
  refine ⟨?_, ?_, ?_⟩
  · rw [hre]
    exact List.map_congr_left (fun p _ => by simp [format_output, hln])
  · rw [List.pairwise_map]
    unfold selectedPairs
    exact List.Pairwise.sublist (List.filter_sublist _) (pairwise_enumF (lines c) 0)
  · intro p hp
    unfold selectedPairs at hp
    have hpe := (List.mem_filter.mp hp).1
    have hget := (mem_enumF _ 0 p hpe).2
    simpa using hget

/-- Witness for C5 at the repository's test input: query `fast` over
three lines with line numbering produces `2:safe, fast, productive.`. -/
theorem C5_line_numbers_witness :
    (cfgLN.line_number = true) ∧
    (search exC5query exC5contents cfgLN = Except.ok [exC5out]) ∧
    ([exC5out] = (selectedPairs exC5query exC5contents cfgLN).map
        (fun p => (Nat.repr (p.1 + 1)).data ++ (':' :: p.2)) ∧
     List.Pairwise (fun a b : Nat => a < b)
       ((selectedPairs exC5query exC5contents cfgLN).map Prod.fst) ∧
     ∀ p ∈ selectedPairs exC5query exC5contents cfgLN,
       (lines exC5contents).get? p.1 = some p.2) :=
  ⟨rfl, by decide, C5_line_numbers exC5query exC5contents cfgLN [exC5out] rfl (by decide)⟩

/-- C6 counterexample: a file whose metadata probe fails but whose content
probe succeeds with non-binary content is judged eligible, so it is false
that every filesystem probe error makes the filter return `false`: the
metadata error is silently ignored and does not force ineligibility. -/
theorem C6_probe_error_counterexample :
    probeErrFile.metaRes = Except.error () ∧ should_search_file probeErrFile = true :=
  ⟨rfl, rfl⟩

/-- C6 (amended): an error while opening or reading the content prefix
makes the filter return `false`; an error in the metadata probe is ignored
(the size ceiling is skipped) and eligibility is decided by the binary
sniff alone; in both cases the filter returns a boolean, never an error. -/
theorem C6_probe_errors_amended (f : FsFile) :
    (f.contentRes.isOk = false → should_search_file f = false) ∧
    (f.metaRes.isOk = false → should_search_file f = contentEligible f) := by
  constructor
  · intro h
    cases hc : f.contentRes with
    | ok bytes => rw [hc] at h; simp [Except.isOk, Except.toBool] at h
    | error e =>
      have hce : contentEligible f = false := by
        simp [contentEligible, is_binary_file, hc]
      unfold should_search_file
      rw [hce]
      cases sizeTooLarge f <;> simp
  · intro h
    cases hm : f.metaRes with
    | ok n => rw [hm] at h; simp [Except.isOk, Except.toBool] at h
    | error e =>
      have hstl : sizeTooLarge f = false := by simp [sizeTooLarge, hm]
      unfold should_search_file
      rw [hstl]
      simp

/-- Witness for the amended C6: a file whose read fails is not eligible. -/
theorem C6_probe_errors_amended_witness :
    readErrFile.contentRes.isOk = false ∧ should_search_file readErrFile = false :=
  ⟨rfl, (C6_probe_errors_amended readErrFile).1 rfl⟩

/-- C7: a file whose reported size exceeds 10 MiB, or whose first 1024
bytes contain a NUL byte, is judged not eligible and is excluded from the
walked file list, independently of any query. -/
theorem C7_oversized_or_binary_excluded (f : FsFile)
    (h : (∃ n, f.metaRes = Except.ok n ∧ 10 * 1024 * 1024 < n) ∨
         (∃ bytes, f.contentRes = Except.ok bytes ∧ (bytes.take 1024).contains 0 = true)) :
    should_search_file f = false ∧ ∀ files : List FsFile, f ∉ eligibleFiles files := by
  have hfalse : should_search_file f = false := by
    rcases h with ⟨n, hm, hn⟩ | ⟨bytes, hc, hnul⟩
    · have hstl : sizeTooLarge f = true := by
        simp [sizeTooLarge, hm]
        omega
      unfold should_search_file
      rw [hstl]
      simp
    · have h0 : (0 : Nat) ∈ List.take 1024 bytes := by simpa using hnul
      have hce : contentEligible f = false := by
        simp [contentEligible, is_binary_file, hc, h0]
      unfold should_search_file
      rw [hce]
      cases sizeTooLarge f <;> simp
  refine ⟨hfalse, fun files hmem => ?_⟩
  unfold eligibleFiles at hmem
  have hsf := (List.mem_filter.mp hmem).2
  rw [hfalse] at hsf
  exact Bool.noConfusion hsf

/-- Witness for C7: a file of size 10 MiB + 1 byte is excluded. -/
theorem C7_oversized_or_binary_excluded_witness :
    ((∃ n, bigFile.metaRes = Except.ok n ∧ 10 * 1024 * 1024 < n) ∨
     (∃ bytes, bigFile.contentRes = Except.ok bytes ∧ (bytes.take 1024).contains 0 = true)) ∧
    (should_search_file bigFile = false ∧
     ∀ files : List FsFile, bigFile ∉ eligibleFiles files) :=
  ⟨Or.inl ⟨10485761, rfl, by omega⟩,
   C7_oversized_or_binary_excluded bigFile (Or.inl ⟨10485761, rfl, by omega⟩)⟩

/-- C8: for every query and every configuration (including ones whose query
is an invalid regular expression under regex mode), `search` on the empty
contents returns `Except.ok []`. -/
theorem C8_empty_contents (q : List Char) (cfg : SearchConfig) :
    search q [] cfg = Except.ok [] := rfl

/-- C9: the empty query is accepted and, whenever `whole_word` is disabled,
matches every line; with `invert_match` also disabled, `search` returns all
lines (formatted per the configuration). -/
theorem C9_empty_query_all_lines (c : List Char) (cfg : SearchConfig)
    (hww : cfg.whole_word = false) (hinv : cfg.invert_match = false) :
    search [] c cfg =
      Except.ok ((enumF 0 (lines c)).map (fun p => format_output p.1 p.2 cfg)) := by
  have hpq : processedQuery [] cfg = [] := by
    unfold processedQuery
    cases cfg.ignore_case <;> simp [toLowerStr]
  unfold search
  rw [hpq, collectSelected_all [] cfg hinv _ (fun p _ => match_line_nil_query p.2 cfg hww)]

/-- Witness for C9: the empty query selects both lines of `abc\ndef`. -/
theorem C9_empty_query_all_lines_witness :
    (cfgLit.whole_word = false) ∧ (cfgLit.invert_match = false) ∧
    search [] exC9contents cfgLit =
      Except.ok ((enumF 0 (lines exC9contents)).map
        (fun p => format_output p.1 p.2 cfgLit)) :=
  ⟨rfl, rfl, C9_empty_query_all_lines exC9contents cfgLit rfl rfl⟩

/-- C10: in literal whole-word mode (regex disabled, whole-word enabled)
the line matcher never returns an error: the query is meta-character
escaped before the word-boundary pattern is built, so the internal pattern
always compiles. -/
theorem C10_literal_whole_word_never_errors (line q : List Char) (cfg : SearchConfig)
    (hr : cfg.regex = false) (hww : cfg.whole_word = true) :
    ∃ b, match_line line q cfg = Except.ok b := by
  obtain ⟨re, hre⟩ := compile_literalWordPattern q
  refine ⟨isMatch re (if cfg.ignore_case then toLowerStr line else line), ?_⟩
  unfold match_line matchCore
  simp [hr, hww, hre]

/-- Witness for C10 at a query full of meta characters. -/
theorem C10_literal_whole_word_never_errors_witness :
    (cfgLW.regex = false) ∧ (cfgLW.whole_word = true) ∧
    ∃ b, match_line exC10line exC10query cfgLW = Except.ok b :=
  ⟨rfl, rfl, C10_literal_whole_word_never_errors exC10line exC10query cfgLW rfl rfl⟩

end Minigrep
